import Mathlib

/-!
Verification development for the langpatrol dataset generators
(`generate_missing_reference_dataset.py` and `generate_dataset.py`).

Texts are embedded as `List Char` (one element per Python code point).
Python `int` values that can be negative (span offsets coming from JSON)
are embedded as `Int`; Python slicing semantics (negative indices count
from the end, out-of-range indices clamp) are embedded explicitly.
Case folding for the case-insensitive regex matching, `str.strip`, and
`str.lower` are embedded at ASCII precision, which is exact for the
pattern table and sector names of the source.
-/

/-! ## Python string primitives -/

/-- Clamped index conversion used by Python slicing: a negative index counts
from the end of the sequence, indices past the end clamp to the length. -/
def pyIdx (n : Nat) (i : Int) : Nat :=
  if i < 0 then ((n : Int) + i).toNat else min i.toNat n

/-- Python `s[:i]`. -/
def pyTake (s : List Char) (i : Int) : List Char :=
  s.take (pyIdx s.length i)

/-- Python `s[i:]`. -/
def pyDrop (s : List Char) (i : Int) : List Char :=
  s.drop (pyIdx s.length i)

/-- Python `s[a:b]`. -/
def pySlice (s : List Char) (a b : Int) : List Char :=
  (s.take (pyIdx s.length b)).drop (pyIdx s.length a)

/-- Python `s.find(t)`: index of the first occurrence of `t` in `s`,
`-1` when there is none. -/
def strFindAux (t : List Char) : List Char → Nat → Int
  | s, i =>
    if t.isPrefixOf s then (i : Int)
    else
      match s with
      | [] => -1
      | _ :: rest => strFindAux t rest (i + 1)

/-- Python `s.find(t)` (and `t in s` is `0 ≤ s.find(t)`). -/
def strFind (s t : List Char) : Int := strFindAux t s 0

/-- Fueled scan counting non-overlapping occurrences left to right.  For
a non-empty `pat` every step shortens `s`, so `s.length + 1` fuel makes
the scan exact. -/
def countOccAux (pat : List Char) : Nat → List Char → Nat
  | 0, _ => 0
  | fuel + 1, s =>
    if pat.isPrefixOf s then 1 + countOccAux pat fuel (s.drop pat.length)
    else
      match s with
      | [] => 0
      | _ :: rest => countOccAux pat fuel rest

/-- Number of non-overlapping occurrences of `pat` in `s`, scanning left
to right, as Python `s.count(pat)` computes it for a non-empty `pat`. -/
def countOcc (pat s : List Char) : Nat :=
  if pat = [] then 0 else countOccAux pat (s.length + 1) s

/-- Fueled scan deleting non-overlapping occurrences left to right. -/
def removeOccAux (pat : List Char) : Nat → List Char → List Char
  | 0, s => s
  | fuel + 1, s =>
    if pat.isPrefixOf s then removeOccAux pat fuel (s.drop pat.length)
    else
      match s with
      | [] => []
      | c :: rest => c :: removeOccAux pat fuel rest

/-- Result of deleting every non-overlapping occurrence of `pat` from
`s`, scanning left to right, as Python `s.replace(pat, "")` computes it
for a non-empty `pat`. -/
def removeOcc (pat s : List Char) : List Char :=
  if pat = [] then s else removeOccAux pat (s.length + 1) s

/-! ## Configuration constants of `generate_missing_reference_dataset.py` -/

def MIN_PROMPT_LENGTH : Nat := 2000

def SECTORS : List String :=
  ["Customer Support", "Pharma/Tech", "Booking Agent", "E-commerce",
   "Healthcare", "Legal", "Education", "Finance"]

def PATTERN_TYPES : List String :=
  ["missing_definite", "missing_deictic", "missing_forward", "resolved", "mixed"]

/-! ## Reference spans and the annotator

A reference span dictionary `{text, start, end, type}`.  The Python `end`
key is spelled `stop` here because `end` is a Lean keyword; `start` and
`stop` are `Int` because they arrive from untrusted JSON. -/

structure Ref where
  text : List Char
  start : Int
  stop : Int
  type : String
deriving DecidableEq, Repr

/-- The fixed annotation marker token. -/
def MARKER : List Char := "[MISSING_REFERENCE]".data

/-- Python `sorted(refs, key=lambda x: x.get('start', 0), reverse=True)`:
a stable descending sort by `start`. -/
def sortRefsDesc (refs : List Ref) : List Ref :=
  List.insertionSort (fun a b => b.start ≤ a.start) refs

/-- Loop body of `annotate_prompt`: insert the marker at `end + offset` in
the running copy, accumulating `offset` by the marker length after every
insertion whose guard `start >= 0 and end <= len(prompt)` passed. -/
def annotateLoop (prompt : List Char) : List Ref → List Char → Int → List Char
  | [], annotated, _ => annotated
  | r :: rs, annotated, offset =>
    if 0 ≤ r.start ∧ r.stop ≤ (prompt.length : Int) then
      annotateLoop prompt rs
        (pyTake annotated (r.stop + offset) ++ MARKER ++ pyDrop annotated (r.stop + offset))
        (offset + (MARKER.length : Int))
    else
      annotateLoop prompt rs annotated offset

/-- `annotate_prompt(prompt, missing_references)` from the source. -/
def annotate_prompt (prompt : List Char) (missing_references : List Ref) : List Char :=
  annotateLoop prompt (sortRefsDesc missing_references) prompt 0

/-! ## The reference-pattern regex engine

The engine embeds exactly the constructs that the fixed pattern table of
`REFERENCE_PATTERNS` uses: word boundaries, single characters from a
class, greedy at-least-n repetition of a class, case-insensitive word
literals, concatenation and ordered alternation.  Matching follows the
Python `re` backtracking order: alternatives are tried left to right and
repetition is greedy, so the match produced at a position is the first
one in that search order.  `\w` is embedded at ASCII precision. -/

/-- Python `\w` at ASCII precision. -/
def isWordCh (c : Char) : Bool := c.isAlphanum || c = '_'

/-- Whether the character at position `i` is a word character (out of
range counts as not a word character). -/
def wordAt (s : List Char) (i : Nat) : Bool :=
  match s.get? i with
  | some c => isWordCh c
  | none => false

/-- Python `\b` at position `i`. -/
def atBoundary (s : List Char) (i : Nat) : Bool :=
  (if i = 0 then false else wordAt s (i - 1)) != wordAt s i

/-- Regular-expression fragment shapes used by `REFERENCE_PATTERNS`. -/
inductive Rx where
  | wb : Rx
  | cls (p : Char → Bool) : Rx
  | clsAtLeast (p : Char → Bool) (n : Nat) : Rx
  | lit (w : List Char) : Rx
  | seq (a b : Rx) : Rx
  | alt2 (a b : Rx) : Rx

/-- Case-insensitive test that the word `w` occurs at the head of `t`. -/
def ciHeadMatches : List Char → List Char → Bool
  | [], _ => true
  | _ :: _, [] => false
  | c :: w, d :: t => if c.toLower = d.toLower then ciHeadMatches w t else false

/-- Try the continuation at `base + j`, `base + j - 1`, …, `base`,
returning the first success: the backtracking order of a greedy
repetition. -/
def tryCounts (k : Nat → Option Nat) (base : Nat) : Nat → Option Nat
  | 0 => k base
  | j + 1 =>
    match k (base + (j + 1)) with
    | some e => some e
    | none => tryCounts k base j

/-- Backtracking matcher: `Rx.mt s r i k` matches `r` in `s` starting at
position `i` and passes the end position to the continuation `k`,
returning the first success in Python search order. -/
def Rx.mt (s : List Char) : Rx → Nat → (Nat → Option Nat) → Option Nat
  | .wb, i, k => if atBoundary s i then k i else none
  | .cls p, i, k =>
    match s.get? i with
    | some c => if p c then k (i + 1) else none
    | none => none
  | .clsAtLeast p n, i, k =>
    let run := ((s.drop i).takeWhile p).length
    if run < n then none else tryCounts k (i + n) (run - n)
  | .lit w, i, k => if ciHeadMatches w (s.drop i) then k (i + w.length) else none
  | .seq a b, i, k => Rx.mt s a i (fun j => Rx.mt s b j k)
  | .alt2 a b, i, k =>
    match Rx.mt s a i k with
    | some e => some e
    | none => Rx.mt s b i k

/-- Least number of characters a fragment can consume. -/
def Rx.minLen : Rx → Nat
  | .wb => 0
  | .cls _ => 1
  | .clsAtLeast _ n => n
  | .lit w => w.length
  | .seq a b => a.minLen + b.minLen
  | .alt2 a b => min a.minLen b.minLen

/-- First match of `r` at exactly position `i`, returning its end. -/
def matchEnd (r : Rx) (s : List Char) (i : Nat) : Option Nat :=
  Rx.mt s r i some

/-- Fueled scan implementing `re.finditer`: try each start position left
to right, emit `(start, end)` for every match found, and resume after the
match (one past it when it was empty).  `s.length + 1` fuel is enough to
visit every position, so `finditer` below is exact. -/
def finditerFuel (r : Rx) (s : List Char) : Nat → Nat → List (Nat × Nat)
  | 0, _ => []
  | fuel + 1, i =>
    if s.length < i then []
    else
      match matchEnd r s i with
      | some e => (i, e) :: finditerFuel r s fuel (if i < e then e else i + 1)
      | none => finditerFuel r s fuel (i + 1)

/-- All matches of `r` in `s` in the order `re.finditer` yields them. -/
def finditer (r : Rx) (s : List Char) : List (Nat × Nat) :=
  finditerFuel r s (s.length + 1) 0

/-- Right-nested concatenation of a fragment list. -/
def rxSeq : List Rx → Rx
  | [] => .lit []
  | [r] => r
  | r :: rest => .seq r (rxSeq rest)

/-- Right-nested ordered alternation of a fragment list. -/
def rxAlt : List Rx → Rx
  | [] => .lit []
  | [r] => r
  | r :: rest => .alt2 r (rxAlt rest)

/-- A case-insensitive literal word. -/
def word (w : String) : Rx := .lit w.data

/-- Python `\s` at ASCII precision. -/
def pySpace (c : Char) : Bool :=
  c = ' ' || c = '\t' || c = '\n' || c = '\r' || c = Char.ofNat 12 || c = Char.ofNat 11

/-- `\s+`. -/
def wsPlus : Rx := .clsAtLeast pySpace 1

/-- `[a-z]` under `re.IGNORECASE`. -/
def asciiAlpha (c : Char) : Bool := c.isAlpha

/-- `[a-z0-9_-]` under `re.IGNORECASE`. -/
def nounCh (c : Char) : Bool := c.isAlphanum || c = '_' || c = '-'

/-- `[a-z][a-z0-9_-]{2,}`. -/
def noun : Rx := .seq (.cls asciiAlpha) (.clsAtLeast nounCh 2)

def pat1 : Rx := rxSeq [.wb,
  rxAlt [word "the", word "this", word "that", word "these", word "those"],
  wsPlus, noun, .wb]

def pat2 : Rx := rxSeq [.wb, word "as", wsPlus,
  rxAlt [word "discussed", word "mentioned", word "stated", word "noted"], wsPlus,
  rxAlt [word "earlier", word "above", word "previously", word "before"], .wb]

def pat3 : Rx := rxSeq [.wb, rxAlt [word "the", word "this", word "that"], wsPlus,
  rxAlt [word "previous", word "earlier", word "prior", word "aforementioned",
         word "above", word "below"],
  wsPlus, noun, .wb]

def pat4 : Rx := rxSeq [.wb, word "continue", wsPlus, word "the", wsPlus, noun, .wb]

def pat5 : Rx := rxSeq [.wb, word "the", wsPlus, noun, wsPlus,
  rxAlt [word "above", word "below", word "mentioned", word "discussed",
         rxSeq [word "we", wsPlus, word "discussed"]], .wb]

def pat6 : Rx := rxSeq [.wb, word "the", wsPlus, word "following", wsPlus, noun, .wb]

def pat7 : Rx := rxSeq [.wb, word "as", wsPlus, word "shown", wsPlus, word "below", .wb]

def pat8 : Rx := rxSeq [.wb, word "the", wsPlus, noun, wsPlus, word "below", .wb]

def pat9 : Rx := rxSeq [.wb, word "these", wsPlus, noun, .wb]

def pat10 : Rx := rxSeq [.wb, word "those", wsPlus, noun, .wb]

/-- The fixed ordered pattern table `REFERENCE_PATTERNS` of the source. -/
def REFERENCE_PATTERNS : List (Rx × String) :=
  [(pat1, "definite_noun"), (pat2, "deictic"), (pat3, "deictic_noun"),
   (pat4, "continue_reference"), (pat5, "positional_reference"),
   (pat6, "forward_reference"), (pat7, "forward_reference"),
   (pat8, "forward_reference"), (pat9, "plural_reference"),
   (pat10, "plural_reference")]

/-- Spans one pattern rule contributes: text is `match.group(0)`, i.e. the
matched slice of the prompt. -/
def matchRefs (s : List Char) (pr : Rx × String) : List Ref :=
  (finditer pr.1 s).map (fun ie =>
    { text := (s.drop ie.1).take (ie.2 - ie.1)
      start := (ie.1 : Int)
      stop := (ie.2 : Int)
      type := pr.2 })

/-- All raw matches in pattern-table order. -/
def allMatches (s : List Char) : List Ref :=
  (REFERENCE_PATTERNS.map (matchRefs s)).flatten

/-- Dedup key of a span. -/
def refKey (r : Ref) : Int × Int := (r.start, r.stop)

/-- The dedup loop of `detect_references_in_prompt`: keep the first span
for each `(start, end)` key. -/
def dedupLoop : List Ref → List (Int × Int) → List Ref
  | [], _ => []
  | r :: rs, seen =>
    if refKey r ∈ seen then dedupLoop rs seen
    else r :: dedupLoop rs (refKey r :: seen)

/-- Python `sorted(references, key=lambda x: x['start'])`: stable
ascending sort by `start`. -/
def sortRefsAsc (l : List Ref) : List Ref :=
  List.insertionSort (fun a b => a.start ≤ b.start) l

/-- `detect_references_in_prompt(prompt)` from the source. -/
def detect_references_in_prompt (s : List Char) : List Ref :=
  dedupLoop (sortRefsAsc (allMatches s)) []

instance : IsTotal Ref (fun a b => a.start ≤ b.start) :=
  ⟨fun a b => Int.le_total a.start b.start⟩

instance : IsTrans Ref (fun a b => a.start ≤ b.start) :=
  ⟨fun _ _ _ h1 h2 => le_trans h1 h2⟩

/-! ## The length enforcer `extend_prompt_if_needed`

The call to the generation service is an external collaborator; its
(already stripped) return value is passed in as `response`, with `[]`
standing for the empty string that `call_ollama` returns on transport
error. -/

/-- Python `str.lower()` (ASCII precision, exact for the sector names). -/
def pyLower (s : String) : String := String.mk (s.data.map Char.toLower)

/-- Python `str.strip()` (ASCII-whitespace precision). -/
def pyStrip (s : List Char) : List Char :=
  ((s.dropWhile Char.isWhitespace).reverse.dropWhile Char.isWhitespace).reverse

/-- Python `s.split('\n')`. -/
def splitOnNl : List Char → List (List Char)
  | [] => [[]]
  | c :: rest =>
    match splitOnNl rest with
    | [] => [[]]
    | l :: ls => if c = '\n' then [] :: l :: ls else (c :: l) :: ls

/-- Python `'\n'.join(lines)`. -/
def joinNl (lines : List (List Char)) : List Char :=
  List.intercalate ['\n'] lines

/-- The artifact cleanup applied to a usable service response: strip,
drop a surrounding quote pair, drop surrounding code fences. -/
def cleanupExtended (e0 : List Char) : List Char :=
  let e1 := pyStrip e0
  let e2 := if ['"'].isPrefixOf e1 ∧ ['"'].isSuffixOf e1 then pySlice e1 1 (-1) else e1
  if "```".data.isPrefixOf e2 ∧ "```".data.isSuffixOf e2 then
    joinNl ((splitOnNl e2).drop 1 |>.dropLast)
  else e2

/-- The deterministic fallback filler paragraph, parameterized by sector. -/
def fallbackExtension (sector : String) : List Char :=
  ("\n\nAdditional context: This request is part of a " ++ pyLower sector
    ++ " workflow that requires comprehensive analysis and detailed processing. Please ensure all relevant information is considered, including historical data, current state, and future requirements. The task involves multiple steps and may require coordination with other systems or stakeholders. Please provide a thorough response that addresses all aspects of this request, including any potential edge cases or special considerations that might apply to this specific "
    ++ pyLower sector ++ " scenario.").data

/-- `extend_prompt_if_needed(prompt, sector, pattern_type)` from the
source (`pattern_type` is unused by the body and omitted). -/
def extend_prompt_if_needed (response prompt : List Char) (sector : String) : List Char :=
  if MIN_PROMPT_LENGTH ≤ prompt.length then prompt
  else if response ≠ [] ∧ prompt.length < response.length then cleanupExtended response
  else prompt ++ fallbackExtension sector

/-! ## Span-position fixup and case finalization
(`generate_test_case_with_llm`, after JSON extraction and structure
validation). -/

/-- One step of the fixup loop: when the span text occurs in the prompt,
move the span to the first occurrence; otherwise leave it untouched. -/
def fixRef (prompt : List Char) (r : Ref) : Ref :=
  if 0 ≤ strFind prompt r.text then
    let actualStart := strFind prompt r.text
    if actualStart ≠ -1 then
      { r with start := actualStart, stop := actualStart + r.text.length }
    else r
  else r

/-- The `for ref in test_case["missing_references"]` fixup loop. -/
def fix_references (prompt : List Char) (refs : List Ref) : List Ref :=
  refs.map (fixRef prompt)

/-- A test case as it comes out of JSON extraction and the validation
that `messages` and `prompt` are present: the optional fields may be
absent. -/
structure ParsedCase where
  prompt : List Char
  codes : Option (List String)
  refs : Option (List Ref)
  notes : Option String
deriving DecidableEq

/-- The finalized test case (every field filled in). -/
structure FinalCase where
  prompt : List Char
  codes : List String
  refs : List Ref
  notes : String
deriving DecidableEq

/-- Lines 272–319 of `generate_test_case_with_llm`: fill defaults for
absent fields, extend the prompt when it is too short (re-detecting spans
for non-`resolved` classes when the text grew), fix span positions, and
apply the final fallback extension.  `oracle` maps the prompt that a
`call_ollama` extension request is built from to the service response. -/
def finalizeCase (oracle : List Char → List Char) (sector patternType : String)
    (tc : ParsedCase) : FinalCase :=
  let codes := match tc.codes with
    | some c => c
    | none => if patternType ≠ "resolved" then ["MISSING_REFERENCE"] else []
  let refs0 := match tc.refs with
    | some (r :: rs) => r :: rs
    | _ =>
      if patternType ≠ "resolved" then detect_references_in_prompt tc.prompt else []
  let p0 := tc.prompt
  let step :=
    if p0.length < MIN_PROMPT_LENGTH then
      let ext := extend_prompt_if_needed (oracle p0) p0 sector
      (ext,
        if p0.length < ext.length ∧ patternType ≠ "resolved" then
          detect_references_in_prompt ext
        else refs0)
    else (p0, refs0)
  let refs2 := fix_references step.1 step.2
  let notes := match tc.notes with
    | some n => n
    | none => patternType ++ " pattern in " ++ sector
  let p2 :=
    if step.1.length < MIN_PROMPT_LENGTH then
      extend_prompt_if_needed (oracle step.1) step.1 sector
    else step.1
  { prompt := p2, codes := codes, refs := refs2, notes := notes }

/-! ## Quota plan of `generate_dataset` (missing-reference generator)

The batch loop computes, for the `sector_idx`-th sector,
`cases_per_sector + (1 if sector_idx < remainder else 0)` cases, and
within it, for the `pattern_idx`-th pattern type,
`cases_per_pattern + (1 if pattern_idx < pattern_remainder else 0)`
attempted cases. -/

/-- `cases_per_sector = total_cases // len(SECTORS)`. -/
def cases_per_sector (total : Nat) : Nat := total / SECTORS.length

/-- Number of cases the `idx`-th sector receives. -/
def sector_count (total idx : Nat) : Nat :=
  cases_per_sector total + (if idx < total % SECTORS.length then 1 else 0)

/-- Number of cases the `pidx`-th pattern type receives inside the
`sidx`-th sector's allotment. -/
def pattern_count (total sidx pidx : Nat) : Nat :=
  sector_count total sidx / PATTERN_TYPES.length
    + (if pidx < sector_count total sidx % PATTERN_TYPES.length then 1 else 0)

/-- Total number of attempted (sector, patternType) cases in the plan. -/
def quotaAttempts (total : Nat) : Nat :=
  ((List.range SECTORS.length).map (fun sidx =>
    ((List.range PATTERN_TYPES.length).map (fun pidx =>
      pattern_count total sidx pidx)).sum)).sum

/-! ## The dataset store of `generate_dataset.py`

The on-disk state is embedded as an association list of case files keyed
by file name together with the parsed `index.json`; `none` for the index
stands for both a missing and an unparseable (`JSONDecodeError`/`IOError`)
index file, which `save_test_case` replaces by the empty default.  The
two file writes a call performs are reified as an event list so that
their order is part of the model. -/

structure Msg where
  role : String
  content : String
deriving DecidableEq, Repr

/-- A record of `dataset_dir/<id>.json` (corpus layout A). -/
structure TestCaseRec where
  id : String
  category : String
  prompt : String
  messages : Option (List Msg)
  expectedIssueCodes : List String
  notes : String
deriving DecidableEq

structure IndexMetadata where
  totalTestCases : Nat
  lastUpdated : String
  format : String
deriving DecidableEq

/-- Parsed contents of `index.json`. -/
structure IndexData where
  testCases : List String
  metadata : IndexMetadata
deriving DecidableEq

/-- The dataset directory. -/
structure StoreState where
  caseFiles : List (String × TestCaseRec)
  index : Option IndexData
deriving DecidableEq

/-- Overwrite-or-append update of the case-file association list. -/
def setFile : List (String × TestCaseRec) → String → TestCaseRec → List (String × TestCaseRec)
  | [], k, v => [(k, v)]
  | (k', v') :: rest, k, v =>
    if k' = k then (k, v) :: rest else (k', v') :: setFile rest k v

/-- Case-file lookup. -/
def getFile : List (String × TestCaseRec) → String → Option TestCaseRec
  | [], _ => none
  | (k', v) :: rest, k => if k' = k then some v else getFile rest k

/-- A file write performed by `save_test_case`, in program order. -/
inductive StoreEvent where
  | writeCaseFile (path : String) (tc : TestCaseRec)
  | writeIndexFile (idx : IndexData)
deriving DecidableEq

/-- The index as `save_test_case` loads it: parsed contents, or the
`{"testCases": [], "metadata": {}}` default when missing or corrupt. -/
def loadedIndex (st : StoreState) : IndexData :=
  match st.index with
  | some d => d
  | none => ⟨[], ⟨0, "", ""⟩⟩

/-- The id list after the update step: append the id only if absent. -/
def updatedIds (tc : TestCaseRec) (st : StoreState) : List String :=
  let tcs := (loadedIndex st).testCases
  if tc.id ∈ tcs then tcs else tcs ++ [tc.id]

/-- The two writes `save_test_case` performs, in order: the per-case file
first, then the rewritten index with refreshed metadata. -/
def save_test_case_events (tc : TestCaseRec) (st : StoreState) : List StoreEvent :=
  [.writeCaseFile (tc.id ++ ".json") tc,
   .writeIndexFile ⟨updatedIds tc st, ⟨(updatedIds tc st).length, tc.notes, "json"⟩⟩]

/-- Effect of one file write on the dataset directory. -/
def applyEvent (st : StoreState) : StoreEvent → StoreState
  | .writeCaseFile p tc => { st with caseFiles := setFile st.caseFiles p tc }
  | .writeIndexFile idx => { st with index := some idx }

/-- `save_test_case(test_case, dataset_dir)` from `generate_dataset.py`. -/
def save_test_case (tc : TestCaseRec) (st : StoreState) : StoreState :=
  (save_test_case_events tc st).foldl applyEvent st

/-- Ids present in the on-disk index (none when missing or corrupt). -/
def indexIds (st : StoreState) : List String :=
  match st.index with
  | some d => d.testCases
  | none => []

/-! ## `OllamaClient.generate_message_history`

Untyped JSON values and `json.loads` stay at the boundary: the extracted
bracketed slice always begins with `[`, so a successful `json.loads` on
it yields a list of JSON values and a failed one raises
`JSONDecodeError`; `loads` abstracts that as `Option (List Json)` and the
theorem quantifies over it. -/

inductive Json where
  | str (s : String)
  | num (n : Int)
  | jbool (b : Bool)
  | jnull
  | arr (l : List Json)
  | obj (fields : List (String × Json))

/-- Python `dict` lookup after `json.loads` (duplicate keys: last wins). -/
def jLookup (fields : List (String × Json)) (k : String) : Option Json :=
  fields.foldl (fun acc kv => if kv.1 = k then some kv.2 else acc) none

/-- Python `str()` of a decoded JSON value (the exact rendering of
non-string values does not matter to any claim; it only needs to be a
string). -/
def jsonToStr : Json → String
  | .str s => s
  | .num n => toString n
  | .jbool true => "True"
  | .jbool false => "False"
  | .jnull => "None"
  | .arr _ => "<list>"
  | .obj _ => "<dict>"

/-- The message-validation filter: keep dicts having `role` and `content`
with a `role` among the three allowed ones, stringifying `content`. -/
def validateMsg : Json → Option Msg
  | .obj fields =>
    match jLookup fields "role", jLookup fields "content" with
    | some (.str r), some c =>
      if r = "system" ∨ r = "user" ∨ r = "assistant" then some ⟨r, jsonToStr c⟩
      else none
    | _, _ => none
  | _ => none

/-- Python `s.find(c)` for a single character. -/
def charFind (s : List Char) (c : Char) : Int :=
  strFind s [c]

/-- Python `s.rfind(c)` for a single character. -/
def charRFind (s : List Char) (c : Char) : Int :=
  match strFind s.reverse [c] with
  | -1 => -1
  | i => (s.length : Int) - 1 - i

/-- The fixed fallback history `OllamaClient._default_messages`. -/
def default_messages : List Msg :=
  [⟨"system", "You are a helpful AI assistant."⟩,
   ⟨"user", "I need help with a task."⟩]

/-- `OllamaClient.generate_message_history`, given the raw service
response text and the JSON decoder at the boundary. -/
def generate_message_history (loads : List Char → Option (List Json))
    (response : List Char) : List Msg :=
  let start := charFind response '['
  let stop := charRFind response ']' + 1
  if 0 ≤ start ∧ start < stop then
    match loads (pySlice response start stop) with
    | none => default_messages
    | some msgs =>
      let valid := msgs.filterMap validateMsg
      if valid = [] then default_messages else valid
  else default_messages

/-! ## Helper lemmas -/

theorem strFindAux_mem (t : List Char) :
    ∀ (s : List Char) (i : Nat), 0 ≤ strFindAux t s i →
      ∃ n : Nat, strFindAux t s i = ((i + n : Nat) : Int) ∧ n ≤ s.length ∧ t <+: s.drop n := by
  intro s
  induction s with
  | nil =>
    intro i h
    rw [strFindAux] at h ⊢
    by_cases hp : t.isPrefixOf ([] : List Char)
    · exact ⟨0, by simp [hp], by omega, by simpa using List.isPrefixOf_iff_prefix.mp hp⟩
    · simp [hp] at h
  | cons c rest ih =>
    intro i h
    rw [strFindAux] at h ⊢
    by_cases hp : t.isPrefixOf (c :: rest)
    · exact ⟨0, by simp [hp], by omega, by simpa using List.isPrefixOf_iff_prefix.mp hp⟩
    · simp only [hp, if_false] at h ⊢
      obtain ⟨n, hn, hb, hpre⟩ := ih (i + 1) h
      refine ⟨n + 1, by rw [hn]; norm_num; ring, by simp; omega, by simpa using hpre⟩

/-- When `strFind` succeeds, the pattern really occurs there and fits in
the string. -/
theorem strFind_spec (s t : List Char) (h : 0 ≤ strFind s t) :
    ∃ n : Nat, strFind s t = (n : Int) ∧ t <+: s.drop n ∧ n + t.length ≤ s.length := by
  obtain ⟨n, hn, hb, hpre⟩ := strFindAux_mem t s 0 h
  refine ⟨n, by simpa using hn, hpre, ?_⟩
  have := hpre.length_le
  simp only [List.length_drop] at this
  omega

/-- The slice at a successful `strFind` position is the pattern. -/
theorem pySlice_at_strFind (s t : List Char) (n : Nat)
    (hpre : t <+: s.drop n) (hlen : n + t.length ≤ s.length) :
    pySlice s (n : Int) ((n : Int) + (t.length : Int)) = t := by
  have hn : pyIdx s.length (n : Int) = n := by
    simp only [pyIdx]
    have h0 : ¬((n : Int) < 0) := by omega
    simp only [h0, if_false, Int.toNat_natCast]
    omega
  have hm : pyIdx s.length ((n : Int) + (t.length : Int)) = n + t.length := by
    simp only [pyIdx]
    have h0 : ¬((n : Int) + (t.length : Int) < 0) := by omega
    simp only [h0, if_false]
    have h1 : ((n : Int) + (t.length : Int)).toNat = n + t.length := by omega
    rw [h1]
    omega
  simp only [pySlice, hn, hm]
  rw [List.drop_take]
  have harith : n + t.length - n = t.length := by omega
  rw [harith]
  exact (List.prefix_iff_eq_take.mp hpre).symm

/-! ## C1: marker placement in `annotate_prompt` -/

/-- Claim C1 (code bug witness): on the two well-formed spans
`("ab", 0, 2)` and `("cd", 3, 5)` of `"ab cd"`, `annotate_prompt` places
the second processed marker at original offset `2` plus the accumulated
shift `19`, which lands inside the first marker; the output is corrupted
instead of `"ab[MISSING_REFERENCE] cd[MISSING_REFERENCE]"`. -/
theorem annotate_prompt_shifts_markers :
    annotate_prompt "ab cd".data
        [⟨"ab".data, 0, 2, "definite_noun"⟩, ⟨"cd".data, 3, 5, "definite_noun"⟩]
      = "ab cd[MISSING_REFEREN[MISSING_REFERENCE]CE]".data
    ∧ annotate_prompt "ab cd".data
        [⟨"ab".data, 0, 2, "definite_noun"⟩, ⟨"cd".data, 3, 5, "definite_noun"⟩]
      ≠ "ab[MISSING_REFERENCE] cd[MISSING_REFERENCE]".data := by
  constructor
  · decide
  · decide

/-! ## C2: span-position fixup -/

/-- Claim C2 counterexample: a span whose text does not occur verbatim in
the prompt is kept, unchanged and mispositioned, instead of being
discarded. -/
theorem fix_references_keeps_unfound_span :
    fix_references "abc".data [⟨"xyz".data, 5, 8, "definite_noun"⟩]
      = [⟨"xyz".data, 5, 8, "definite_noun"⟩]
    ∧ strFind "abc".data "xyz".data < 0 := by
  constructor
  · decide
  · decide

/-- Claim C2 as amended: every span kept after the fixup loop comes from
an input span; when its text occurs in the final prompt it is repositioned
to the first occurrence (so the slice at its positions equals its text),
and when its text does not occur it is kept completely unchanged. -/
theorem fix_references_spec (prompt : List Char) (refs : List Ref) :
    ∀ r ∈ fix_references prompt refs, ∃ r0 ∈ refs,
      (0 ≤ strFind prompt r0.text →
        r.text = r0.text ∧ r.type = r0.type ∧
        r.start = strFind prompt r0.text ∧
        r.stop = r.start + (r.text.length : Int) ∧
        pySlice prompt r.start r.stop = r.text)
      ∧ (strFind prompt r0.text < 0 → r = r0) := by
  intro r hr
  simp only [fix_references, List.mem_map] at hr
  obtain ⟨r0, hr0, hfix⟩ := hr
  refine ⟨r0, hr0, ?_, ?_⟩
  · intro hfound
    obtain ⟨n, hn, hpre, hlen⟩ := strFind_spec prompt r0.text hfound
    have hne : strFind prompt r0.text ≠ -1 := by omega
    have hfe : fixRef prompt r0 =
        { r0 with start := strFind prompt r0.text,
                  stop := strFind prompt r0.text + (r0.text.length : Int) } := by
      rw [fixRef]
      simp only [hfound, if_true, ne_eq, hne, not_false_iff]
    rw [← hfix, hfe]
    refine ⟨rfl, rfl, rfl, rfl, ?_⟩
    simp only [hn]
    exact pySlice_at_strFind prompt r0.text n hpre hlen
  · intro hnf
    have hno : ¬(0 ≤ strFind prompt r0.text) := by omega
    rw [← hfix, fixRef]
    simp only [hno, if_false]

/-- Witness for `fix_references_spec` at a concrete prompt and span. -/
theorem fix_references_spec_witness :
    ⟨"bc".data, (1 : Int), (3 : Int), "t"⟩ ∈
        fix_references "abc".data [⟨"bc".data, 9, 11, "t"⟩]
    ∧ (0 ≤ strFind "abc".data "bc".data)
    ∧ pySlice "abc".data 1 3 = "bc".data := by
  refine ⟨by decide, by decide, ?_⟩
  have h := fix_references_spec "abc".data [⟨"bc".data, 9, 11, "t"⟩]
    ⟨"bc".data, 1, 3, "t"⟩ (by decide)
  obtain ⟨r0, hr0, hfound, _⟩ := h
  have hr0eq : r0 = ⟨"bc".data, 9, 11, "t"⟩ := by
    simpa using hr0
  subst hr0eq
  have := hfound (by decide)
  have hs : strFind "abc".data "bc".data = 1 := by decide
  simpa [hs] using this.2.2.2.2

set_option maxRecDepth 40000

/-! ## C3: length enforcement -/

/-- Claim C3 counterexample: a 500-character prompt extended through the
deterministic fallback (service response empty) comes out at
500 + 533 = 1033 characters, below `MIN_PROMPT_LENGTH = 2000`. -/
theorem extend_prompt_below_min :
    ¬ (MIN_PROMPT_LENGTH ≤
        (extend_prompt_if_needed [] (List.replicate 500 'a') "Legal").length)
    ∧ (extend_prompt_if_needed [] (List.replicate 500 'a') "Legal").length = 1033 := by
  refine ⟨by decide, by decide⟩

/-- Claim C3 as amended: a prompt already at `MIN_PROMPT_LENGTH` is
returned unchanged; otherwise the cleaned service response is used when
it is nonempty and strictly longer, and the fixed filler paragraph is
appended when it is not — neither branch guarantees that the result
reaches `MIN_PROMPT_LENGTH`: the fallback adds exactly the filler
length. -/
theorem extend_prompt_spec (response prompt : List Char) (sector : String) :
    (MIN_PROMPT_LENGTH ≤ prompt.length →
      extend_prompt_if_needed response prompt sector = prompt)
    ∧ (prompt.length < MIN_PROMPT_LENGTH → response ≠ [] →
        prompt.length < response.length →
        extend_prompt_if_needed response prompt sector = cleanupExtended response)
    ∧ (prompt.length < MIN_PROMPT_LENGTH →
        (response = [] ∨ response.length ≤ prompt.length) →
        extend_prompt_if_needed response prompt sector
            = prompt ++ fallbackExtension sector
        ∧ (extend_prompt_if_needed response prompt sector).length
            = prompt.length + (fallbackExtension sector).length) := by
  refine ⟨?_, ?_, ?_⟩
  · intro h
    rw [extend_prompt_if_needed]
    simp [h]
  · intro hshort hne hlt
    rw [extend_prompt_if_needed]
    have h1 : ¬ (MIN_PROMPT_LENGTH ≤ prompt.length) := by omega
    simp [h1, hne, hlt]
  · intro hshort hor
    have h1 : ¬ (MIN_PROMPT_LENGTH ≤ prompt.length) := by omega
    have h2 : ¬ (response ≠ [] ∧ prompt.length < response.length) := by
      rcases hor with h | h
      · simp [h]
      · intro hc
        omega
    rw [extend_prompt_if_needed, if_neg h1, if_neg h2]
    exact ⟨rfl, by simp⟩

/-- Witness for `extend_prompt_spec` on a one-character prompt with an
empty service response. -/
theorem extend_prompt_spec_witness :
    extend_prompt_if_needed [] ['a'] "Legal" = ['a'] ++ fallbackExtension "Legal"
    ∧ (extend_prompt_if_needed [] ['a'] "Legal").length
        = 1 + (fallbackExtension "Legal").length :=
  (extend_prompt_spec [] ['a'] "Legal").2.2 (by decide) (Or.inl rfl)

/-! ## C6: marker count and round trip on detected spans -/

/-- Claim C6 (code bug witness): on `"the report the report"` the
detector finds two spans, but the annotated output contains only one
intact marker (the second insertion splits the first marker), and
removing all marker occurrences does not reconstruct the input. -/
theorem annotate_detect_roundtrip_broken :
    (detect_references_in_prompt "the report the report".data).length = 2
    ∧ countOcc MARKER (annotate_prompt "the report the report".data
        (detect_references_in_prompt "the report the report".data)) = 1
    ∧ removeOcc MARKER (annotate_prompt "the report the report".data
        (detect_references_in_prompt "the report the report".data))
      ≠ "the report the report".data := by
  refine ⟨by decide, by decide, by decide⟩

/-! ## C7: class invariants of the finalized case -/

/-- Claim C7 counterexample: a `resolved` case whose service response
supplies a non-empty `expected_issue_codes` and a non-empty
`missing_references` keeps both; the finalized `resolved` case carries a
span and the `MISSING_REFERENCE` code. -/
theorem finalizeCase_resolved_keeps_supplied :
    (finalizeCase (fun _ => []) "Legal" "resolved"
        ⟨"hi".data, some ["MISSING_REFERENCE"],
         some [⟨"qqq".data, 0, 3, "definite_noun"⟩], some "n"⟩).codes ≠ []
    ∧ (finalizeCase (fun _ => []) "Legal" "resolved"
        ⟨"hi".data, some ["MISSING_REFERENCE"],
         some [⟨"qqq".data, 0, 3, "definite_noun"⟩], some "n"⟩).refs ≠ [] := by
  refine ⟨by decide, by decide⟩

/-- Claim C7 as amended: the class defaults fill only fields the response
omitted (or an empty span list), and supplied `expected_issue_codes` pass
through untouched for every class and prompt length.  A `resolved` case
with both fields omitted gets `[]` and `[]` whatever the prompt length;
a non-`resolved` case with omitted codes gets `["MISSING_REFERENCE"]`
and, when the prompt is already long enough, omitted spans become the
detector output (which may be empty).  Supplied non-empty spans are kept
(subject to the position fixup against the final text) for `resolved`
cases at every length and for non-`resolved` cases whose prompt is not
strictly lengthened; but when a non-`resolved` case's prompt is below
`MIN_PROMPT_LENGTH` and the extension strictly lengthens it, the
supplied spans are discarded and replaced by re-detection on the
extended prompt. -/
theorem finalizeCase_defaults (oracle : List Char → List Char) (sector : String)
    (prompt : List Char) :
    (∀ (pt : String) (c : List String) (refs : Option (List Ref)) (notes : Option String),
        (finalizeCase oracle sector pt ⟨prompt, some c, refs, notes⟩).codes = c)
    ∧ (∀ notes : Option String,
        (finalizeCase oracle sector "resolved" ⟨prompt, none, none, notes⟩).codes = []
        ∧ (finalizeCase oracle sector "resolved" ⟨prompt, none, none, notes⟩).refs = [])
    ∧ (∀ (pt : String) (refs : Option (List Ref)) (notes : Option String),
        pt ≠ "resolved" →
        (finalizeCase oracle sector pt ⟨prompt, none, refs, notes⟩).codes
          = ["MISSING_REFERENCE"])
    ∧ (MIN_PROMPT_LENGTH ≤ prompt.length →
        ∀ (pt : String) (notes : Option String), pt ≠ "resolved" →
        (finalizeCase oracle sector pt ⟨prompt, none, none, notes⟩).refs
          = fix_references prompt (detect_references_in_prompt prompt))
    ∧ (∀ (copt : Option (List String)) (r : Ref) (rs : List Ref) (notes : Option String),
        (finalizeCase oracle sector "resolved" ⟨prompt, copt, some (r :: rs), notes⟩).refs
          = fix_references
              (if prompt.length < MIN_PROMPT_LENGTH then
                extend_prompt_if_needed (oracle prompt) prompt sector
               else prompt)
              (r :: rs))
    ∧ (∀ (pt : String) (copt : Option (List String)) (r : Ref) (rs : List Ref)
         (notes : Option String), pt ≠ "resolved" →
        (MIN_PROMPT_LENGTH ≤ prompt.length →
          (finalizeCase oracle sector pt ⟨prompt, copt, some (r :: rs), notes⟩).refs
            = fix_references prompt (r :: rs))
        ∧ (prompt.length < MIN_PROMPT_LENGTH →
            prompt.length < (extend_prompt_if_needed (oracle prompt) prompt sector).length →
            (finalizeCase oracle sector pt ⟨prompt, copt, some (r :: rs), notes⟩).refs
              = fix_references (extend_prompt_if_needed (oracle prompt) prompt sector)
                  (detect_references_in_prompt
                    (extend_prompt_if_needed (oracle prompt) prompt sector)))
        ∧ (prompt.length < MIN_PROMPT_LENGTH →
            (extend_prompt_if_needed (oracle prompt) prompt sector).length ≤ prompt.length →
            (finalizeCase oracle sector pt ⟨prompt, copt, some (r :: rs), notes⟩).refs
              = fix_references (extend_prompt_if_needed (oracle prompt) prompt sector)
                  (r :: rs))) := by
  refine ⟨?_, ?_, ?_, ?_, ?_, ?_⟩
  · intro pt c refs notes
    simp [finalizeCase]
  · intro notes
    by_cases hl : prompt.length < MIN_PROMPT_LENGTH <;>
      simp [finalizeCase, fix_references, hl]
  · intro pt refs notes hpt
    simp [finalizeCase, hpt]
  · intro hlen pt notes hpt
    have hno : ¬ (prompt.length < MIN_PROMPT_LENGTH) := by omega
    simp [finalizeCase, hno, hpt]
  · intro copt r rs notes
    by_cases hl : prompt.length < MIN_PROMPT_LENGTH <;>
      simp [finalizeCase, hl]
  · intro pt copt r rs notes hpt
    refine ⟨?_, ?_, ?_⟩
    · intro hlen
      have hno : ¬ (prompt.length < MIN_PROMPT_LENGTH) := by omega
      simp [finalizeCase, hno]
    · intro hl hg
      simp [finalizeCase, hl, hg, hpt]
    · intro hl hng
      have hnc : ¬ (prompt.length
          < (extend_prompt_if_needed (oracle prompt) prompt sector).length
          ∧ pt ≠ "resolved") := by
        intro hc
        omega
      simp [finalizeCase, hl, hnc]

/-- Witness for `finalizeCase_defaults`: a short non-`resolved` case with
supplied spans has them replaced by re-detection on the extended
prompt. -/
theorem finalizeCase_defaults_witness :
    "hi".data.length < MIN_PROMPT_LENGTH
    ∧ "hi".data.length < (extend_prompt_if_needed [] "hi".data "Legal").length
    ∧ (finalizeCase (fun _ => []) "Legal" "missing_definite"
        ⟨"hi".data, some ["X"], some [⟨"qqq".data, 0, 3, "definite_noun"⟩], some "n"⟩).refs
      = fix_references (extend_prompt_if_needed [] "hi".data "Legal")
          (detect_references_in_prompt (extend_prompt_if_needed [] "hi".data "Legal")) :=
  ⟨by decide, by decide,
   ((finalizeCase_defaults (fun _ => []) "Legal" "hi".data).2.2.2.2.2
      "missing_definite" (some ["X"]) ⟨"qqq".data, 0, 3, "definite_noun"⟩ [] (some "n")
      (by decide)).2.1 (by decide) (by decide)⟩

/-! ## C4: the quota plan -/

/-- Inside one sector the per-pattern counts sum to the sector's
allotment. -/
theorem patternSum (total sidx : Nat) :
    ((List.range PATTERN_TYPES.length).map (fun pidx =>
      pattern_count total sidx pidx)).sum = sector_count total sidx := by
  simp only [pattern_count]
  generalize sector_count total sidx = A
  simp [PATTERN_TYPES, List.range_succ]
  split_ifs <;> omega

/-- The sector allotments sum to the requested total. -/
theorem sectorSum (total : Nat) :
    ((List.range SECTORS.length).map (fun sidx =>
      sector_count total sidx)).sum = total := by
  simp [sector_count, cases_per_sector, SECTORS, List.range_succ]
  split_ifs <;> omega

/-- Claim C4: the plan attempts exactly `total` cases; each sector gets
`total / 8` cases plus one extra for the first `total % 8` sectors in
list order; inside a sector each pattern type gets `allotment / 5` plus
one extra for the first `allotment % 5` types in list order; and no two
sector allotments, and no two per-(sector, type) cell allotments anywhere
in the grid, differ by more than one. -/
theorem quota_plan_spec (total : Nat) :
    quotaAttempts total = total
    ∧ (∀ sidx : Nat, sector_count total sidx
        = total / SECTORS.length + (if sidx < total % SECTORS.length then 1 else 0))
    ∧ (∀ sidx pidx : Nat, pattern_count total sidx pidx
        = sector_count total sidx / PATTERN_TYPES.length
          + (if pidx < sector_count total sidx % PATTERN_TYPES.length then 1 else 0))
    ∧ (∀ sidx sidx' : Nat, sidx < SECTORS.length → sidx' < SECTORS.length →
        sector_count total sidx ≤ sector_count total sidx' + 1)
    ∧ (∀ sidx pidx sidx' pidx' : Nat,
        sidx < SECTORS.length → pidx < PATTERN_TYPES.length →
        sidx' < SECTORS.length → pidx' < PATTERN_TYPES.length →
        pattern_count total sidx pidx ≤ pattern_count total sidx' pidx' + 1) := by
  refine ⟨?_, fun _ => rfl, fun _ _ => rfl, ?_, ?_⟩
  · unfold quotaAttempts
    simp only [patternSum]
    exact sectorSum total
  · intro sidx sidx' hs hs'
    simp only [sector_count, cases_per_sector, SECTORS, List.length_cons,
      List.length_nil] at *
    split_ifs <;> omega
  · intro sidx pidx sidx' pidx' hs hp hs' hp'
    simp only [pattern_count, sector_count, cases_per_sector, SECTORS, PATTERN_TYPES,
      List.length_cons, List.length_nil] at *
    norm_num at *
    split_ifs <;> omega

/-- Witness for `quota_plan_spec` at `total = 300` and the extreme grid
cells. -/
theorem quota_plan_spec_witness :
    quotaAttempts 300 = 300
    ∧ pattern_count 300 0 0 ≤ pattern_count 300 7 4 + 1 :=
  ⟨(quota_plan_spec 300).1,
   (quota_plan_spec 300).2.2.2.2 0 0 7 4 (by decide) (by decide) (by decide) (by decide)⟩

/-! ## C8 and C9: the dataset store -/

/-- Overwriting the same case file with the same contents again changes
nothing. -/
theorem setFile_idem (fs : List (String × TestCaseRec)) (k : String) (v : TestCaseRec) :
    setFile (setFile fs k v) k v = setFile fs k v := by
  induction fs with
  | nil => simp [setFile]
  | cons hd tl ih =>
    obtain ⟨k', v'⟩ := hd
    by_cases h : k' = k
    · simp [setFile, h]
    · simp [setFile, h, ih]

/-- The saved id is always in the updated id list. -/
theorem mem_updatedIds (tc : TestCaseRec) (st : StoreState) :
    tc.id ∈ updatedIds tc st := by
  unfold updatedIds
  by_cases h : tc.id ∈ (loadedIndex st).testCases
  · simp [h]
  · simp [h]

/-- `save_test_case` in closed form: one case-file write and one index
write computed from the pre-state. -/
theorem save_test_case_unfold (tc : TestCaseRec) (st : StoreState) :
    save_test_case tc st =
      ⟨setFile st.caseFiles (tc.id ++ ".json") tc,
       some ⟨updatedIds tc st,
             ⟨(updatedIds tc st).length, tc.notes, "json"⟩⟩⟩ := rfl

/-- A second save of the same case does not extend the id list. -/
theorem updatedIds_save (tc : TestCaseRec) (st : StoreState) :
    updatedIds tc (save_test_case tc st) = updatedIds tc st := by
  rw [save_test_case_unfold]
  show (if tc.id ∈ updatedIds tc st then updatedIds tc st
        else updatedIds tc st ++ [tc.id]) = updatedIds tc st
  rw [if_pos (mem_updatedIds tc st)]

/-- Claim C8: `save_test_case` is idempotent — saving an identical case
twice leaves the whole store state (case file contents and index id list)
exactly as after the first save; the index metadata count equals the id
list length; and the per-call event list writes the case file strictly
before the index file. -/
theorem save_test_case_idempotent (tc : TestCaseRec) (st : StoreState) :
    save_test_case tc (save_test_case tc st) = save_test_case tc st
    ∧ (∀ d : IndexData, (save_test_case tc st).index = some d →
        d.metadata.totalTestCases = d.testCases.length)
    ∧ save_test_case_events tc st
        = [StoreEvent.writeCaseFile (tc.id ++ ".json") tc,
           StoreEvent.writeIndexFile ⟨updatedIds tc st,
             ⟨(updatedIds tc st).length, tc.notes, "json"⟩⟩] := by
  refine ⟨?_, ?_, rfl⟩
  · rw [save_test_case_unfold tc (save_test_case tc st)]
    rw [updatedIds_save tc st]
    rw [save_test_case_unfold tc st]
    simp [setFile_idem]
  · intro d hd
    rw [save_test_case_unfold] at hd
    injection hd with hd
    subst hd
    rfl

/-- Witness for `save_test_case_idempotent` on a concrete store. -/
theorem save_test_case_idempotent_witness :
    (save_test_case ⟨"a", "c", "p", none, [], "n"⟩ (StoreState.mk [] none)).index
      = some ⟨["a"], ⟨1, "n", "json"⟩⟩
    ∧ (1 : Nat) = (["a"] : List String).length :=
  ⟨by decide,
   (save_test_case_idempotent ⟨"a", "c", "p", none, [], "n"⟩ ⟨[], none⟩).2.1
     ⟨["a"], ⟨1, "n", "json"⟩⟩ (by decide)⟩

/-- Claim C9: a save never drops ids — every id present in the index
before `save_test_case` is still present afterwards. -/
theorem save_test_case_preserves_ids (tc : TestCaseRec) (st : StoreState)
    (x : String) (hx : x ∈ indexIds st) :
    x ∈ indexIds (save_test_case tc st) := by
  rw [save_test_case_unfold]
  show x ∈ updatedIds tc st
  have hx' : x ∈ (loadedIndex st).testCases := by
    unfold indexIds at hx
    unfold loadedIndex
    cases h : st.index with
    | none => rw [h] at hx; cases hx
    | some d => rw [h] at hx; exact hx
  unfold updatedIds
  by_cases h : tc.id ∈ (loadedIndex st).testCases
  · simpa [h] using hx'
  · simp only [h, if_false]
    exact List.mem_append_left _ hx'

/-- Witness for `save_test_case_preserves_ids`: a pre-existing id
survives the save of a new case. -/
theorem save_test_case_preserves_ids_witness :
    "a" ∈ indexIds (save_test_case ⟨"b", "c", "p", none, [], "n"⟩
      ⟨[], some ⟨["a"], ⟨1, "", "json"⟩⟩⟩) :=
  save_test_case_preserves_ids ⟨"b", "c", "p", none, [], "n"⟩
    ⟨[], some ⟨["a"], ⟨1, "", "json"⟩⟩⟩ "a" (by decide)

/-! ## C10: message-history generation -/

/-- Messages accepted by the validation filter carry one of the three
allowed roles. -/
theorem validateMsg_role (j : Json) (m : Msg) (h : validateMsg j = some m) :
    m.role = "system" ∨ m.role = "user" ∨ m.role = "assistant" := by
  cases j with
  | obj fields =>
    simp only [validateMsg] at h
    split at h
    · split at h
      · rename_i hcond
        injection h with h
        subst h
        exact hcond
      · cases h
    · cases h
  | str s => simp [validateMsg] at h
  | num n => simp [validateMsg] at h
  | jbool b => simp [validateMsg] at h
  | jnull => simp [validateMsg] at h
  | arr l => simp [validateMsg] at h

/-- Claim C10: for every service response and every possible outcome of
`json.loads` on the extracted bracketed slice, the returned history is a
non-empty list of messages whose roles are in {system, user, assistant};
when no valid message can be extracted it is exactly the fixed
two-message default. -/
theorem generate_message_history_spec
    (loads : List Char → Option (List Json)) (response : List Char) :
    generate_message_history loads response ≠ []
    ∧ (∀ m ∈ generate_message_history loads response,
        m.role = "system" ∨ m.role = "user" ∨ m.role = "assistant")
    ∧ (generate_message_history loads response = default_messages
       ∨ ∃ msgs : List Json,
          loads (pySlice response (charFind response '[')
              (charRFind response ']' + 1)) = some msgs
          ∧ generate_message_history loads response = msgs.filterMap validateMsg
          ∧ msgs.filterMap validateMsg ≠ []) := by
  have hdef : default_messages ≠ [] := by decide
  have hdefrole : ∀ m ∈ default_messages,
      m.role = "system" ∨ m.role = "user" ∨ m.role = "assistant" := by decide
  by_cases hcond : 0 ≤ charFind response '[' ∧
      charFind response '[' < charRFind response ']' + 1
  · cases hload : loads (pySlice response (charFind response '[')
        (charRFind response ']' + 1)) with
    | none =>
      have hg : generate_message_history loads response = default_messages := by
        unfold generate_message_history
        rw [if_pos hcond, hload]
      rw [hg]
      exact ⟨hdef, hdefrole, Or.inl rfl⟩
    | some msgs =>
      have hg : generate_message_history loads response
          = (if msgs.filterMap validateMsg = [] then default_messages
             else msgs.filterMap validateMsg) := by
        unfold generate_message_history
        rw [if_pos hcond, hload]
      by_cases hval : msgs.filterMap validateMsg = []
      · rw [hg, if_pos hval]
        exact ⟨hdef, hdefrole, Or.inl rfl⟩
      · rw [hg, if_neg hval]
        refine ⟨hval, ?_, Or.inr ⟨msgs, rfl, rfl, hval⟩⟩
        intro m hm
        obtain ⟨j, _, hj⟩ := List.mem_filterMap.mp hm
        exact validateMsg_role j m hj
  · have hg : generate_message_history loads response = default_messages := by
      unfold generate_message_history
      rw [if_neg hcond]
    rw [hg]
    exact ⟨hdef, hdefrole, Or.inl rfl⟩

/-- Witness for `generate_message_history_spec` on a bracketless response
with an always-failing decoder. -/
theorem generate_message_history_spec_witness :
    generate_message_history (fun _ => none) "no json here".data ≠ []
    ∧ generate_message_history (fun _ => none) "no json here".data = default_messages := by
  refine ⟨(generate_message_history_spec (fun _ => none) "no json here".data).1, ?_⟩
  rcases (generate_message_history_spec (fun _ => none) "no json here".data).2.2 with h | h
  · exact h
  · obtain ⟨msgs, hmsgs, _⟩ := h
    cases hmsgs

/-! ## C5: the span detector -/

theorem ciHeadMatches_length {w t : List Char} (h : ciHeadMatches w t = true) :
    w.length ≤ t.length := by
  induction w generalizing t with
  | nil => simp
  | cons c w ih =>
    cases t with
    | nil => simp [ciHeadMatches] at h
    | cons d t =>
      simp only [ciHeadMatches] at h
      split at h
      · simpa using ih h
      · cases h

theorem tryCounts_some {k : Nat → Option Nat} {base : Nat} :
    ∀ {j e : Nat}, tryCounts k base j = some e →
      ∃ j', base ≤ j' ∧ j' ≤ base + j ∧ k j' = some e := by
  intro j
  induction j with
  | zero =>
    intro e h
    exact ⟨base, le_refl _, by omega, h⟩
  | succ j ih =>
    intro e h
    simp only [tryCounts] at h
    split at h
    next e' heq => exact ⟨base + (j + 1), by omega, by omega, by rw [heq, h]⟩
    next => obtain ⟨j', h1, h2, h3⟩ := ih h; exact ⟨j', h1, by omega, h3⟩

theorem mt_some {s : List Char} (re : Rx) :
    ∀ {i : Nat} {k : Nat → Option Nat} {e : Nat}, i ≤ s.length →
      Rx.mt s re i k = some e →
      ∃ j, i + re.minLen ≤ j ∧ j ≤ s.length ∧ k j = some e := by
  induction re with
  | wb =>
    intro i k e hi h
    simp only [Rx.mt] at h
    split at h
    · exact ⟨i, by simp [Rx.minLen], hi, h⟩
    · cases h
  | cls p =>
    intro i k e hi h
    simp only [Rx.mt] at h
    split at h
    next c heq =>
      split at h
      · have : i < s.length := by
          by_contra hc
          rw [List.get?_eq_none.mpr (by omega)] at heq
          cases heq
        exact ⟨i + 1, by simp [Rx.minLen], by omega, h⟩
      · cases h
    next => cases h
  | clsAtLeast p n =>
    intro i k e hi h
    simp only [Rx.mt] at h
    split at h
    · cases h
    next hrun =>
      obtain ⟨j', h1, h2, h3⟩ := tryCounts_some h
      have hrunle : ((s.drop i).takeWhile p).length ≤ s.length - i := by
        have := (List.takeWhile_sublist p (l := s.drop i)).length_le
        simpa using this
      exact ⟨j', by simpa [Rx.minLen] using h1, by omega, h3⟩
  | lit w =>
    intro i k e hi h
    simp only [Rx.mt] at h
    split at h
    next hm =>
      have hlen : w.length ≤ s.length - i := by
        have := ciHeadMatches_length hm
        simpa using this
      exact ⟨i + w.length, by simp [Rx.minLen], by omega, h⟩
    next => cases h
  | seq a b iha ihb =>
    intro i k e hi h
    simp only [Rx.mt] at h
    obtain ⟨j1, ha1, ha2, ha3⟩ := iha hi h
    obtain ⟨j2, hb1, hb2, hb3⟩ := ihb ha2 ha3
    exact ⟨j2, by simp [Rx.minLen]; omega, hb2, hb3⟩
  | alt2 a b iha ihb =>
    intro i k e hi h
    simp only [Rx.mt] at h
    split at h
    next e' heq =>
      obtain ⟨j, h1, h2, h3⟩ := iha hi (heq.trans h)
      exact ⟨j, by simp [Rx.minLen]; omega, h2, h3⟩
    next =>
      obtain ⟨j, h1, h2, h3⟩ := ihb hi h
      exact ⟨j, by simp [Rx.minLen]; omega, h2, h3⟩

theorem matchEnd_bounds {re : Rx} {s : List Char} {i e : Nat}
    (hi : i ≤ s.length) (h : matchEnd re s i = some e) :
    i + re.minLen ≤ e ∧ e ≤ s.length := by
  obtain ⟨j, h1, h2, h3⟩ := mt_some re hi h
  injection h3 with h3
  subst h3
  exact ⟨h1, h2⟩

theorem finditerFuel_mem {re : Rx} {s : List Char} :
    ∀ (fuel i : Nat) (p : Nat × Nat), p ∈ finditerFuel re s fuel i →
      i ≤ p.1 ∧ p.1 + re.minLen ≤ p.2 ∧ p.2 ≤ s.length ∧ p.1 ≤ s.length := by
  intro fuel
  induction fuel with
  | zero => intro i p hp; cases hp
  | succ fuel ih =>
    intro i p hp
    simp only [finditerFuel] at hp
    split at hp
    · cases hp
    next hguard =>
      have hi : i ≤ s.length := by omega
      split at hp
      next e heq =>
        rcases List.mem_cons.mp hp with h | h
        · subst h
          obtain ⟨h1, h2⟩ := matchEnd_bounds hi heq
          exact ⟨le_refl _, h1, h2, hi⟩
        · obtain ⟨h1, h2, h3, h4⟩ := ih _ p h
          refine ⟨?_, h2, h3, h4⟩
          split at h1 <;> omega
      next =>
        obtain ⟨h1, h2, h3, h4⟩ := ih _ p hp
        exact ⟨by omega, h2, h3, h4⟩

theorem patterns_minLen :
    ∀ pr ∈ REFERENCE_PATTERNS, 1 ≤ pr.1.minLen := by decide

/-- Natural-number view of a detected span's fields. -/
theorem allMatches_fields {s : List Char} :
    ∀ r ∈ allMatches s, ∃ i e : Nat,
      r.start = (i : Int) ∧ r.stop = (e : Int) ∧ i < e ∧ e ≤ s.length ∧
      r.text = (s.drop i).take (e - i) := by
  intro r hr
  simp only [allMatches, List.mem_flatten, List.mem_map] at hr
  obtain ⟨l, ⟨pr, hpr, hl⟩, hrl⟩ := hr
  subst hl
  simp only [matchRefs, List.mem_map] at hrl
  obtain ⟨ie, hie, hr⟩ := hrl
  subst hr
  obtain ⟨h1, h2, h3, h4⟩ := finditerFuel_mem (s.length + 1) 0 ie hie
  have hmin := patterns_minLen pr hpr
  exact ⟨ie.1, ie.2, rfl, rfl, by omega, h3, rfl⟩

theorem dedupLoop_sublist : ∀ (l : List Ref) (seen : List (Int × Int)),
    List.Sublist (dedupLoop l seen) l := by
  intro l
  induction l with
  | nil => intro seen; simp [dedupLoop]
  | cons r rs ih =>
    intro seen
    rw [dedupLoop]
    split_ifs
    · exact (ih seen).cons r
    · exact (ih _).cons₂ r

theorem dedupLoop_not_seen : ∀ (l : List Ref) (seen : List (Int × Int)),
    ∀ r ∈ dedupLoop l seen, refKey r ∉ seen := by
  intro l
  induction l with
  | nil => intro seen r hr; cases hr
  | cons a rs ih =>
    intro seen r hr
    rw [dedupLoop] at hr
    split_ifs at hr with h
    · exact ih seen r hr
    · rcases List.mem_cons.mp hr with h' | h'
      · subst h'; exact h
      · have := ih _ r h'
        intro hc
        exact this (List.mem_cons_of_mem _ hc)

theorem dedupLoop_keys_nodup : ∀ (l : List Ref) (seen : List (Int × Int)),
    (dedupLoop l seen).Pairwise (fun a b => refKey a ≠ refKey b) := by
  intro l
  induction l with
  | nil => intro seen; simp [dedupLoop]
  | cons a rs ih =>
    intro seen
    rw [dedupLoop]
    split_ifs with h
    · exact ih seen
    · refine List.Pairwise.cons ?_ (ih _)
      intro b hb heq
      have := dedupLoop_not_seen rs _ b hb
      exact this (by rw [← heq]; exact List.mem_cons_self _ _)

theorem dedupLoop_first : ∀ (l : List Ref) (seen : List (Int × Int)),
    ∀ r ∈ dedupLoop l seen, ∃ l1 l2, l = l1 ++ r :: l2 ∧
      ∀ x ∈ l1, refKey x = refKey r → refKey x ∈ seen := by
  intro l
  induction l with
  | nil => intro seen r hr; cases hr
  | cons a rs ih =>
    intro seen r hr
    rw [dedupLoop] at hr
    split_ifs at hr with h
    · obtain ⟨l1, l2, hsplit, hfirst⟩ := ih seen r hr
      refine ⟨a :: l1, l2, by rw [hsplit, List.cons_append], ?_⟩
      intro x hx hxr
      rcases List.mem_cons.mp hx with h' | h'
      · subst h'
        exact h
      · exact hfirst x h' hxr
    · rcases List.mem_cons.mp hr with h' | h'
      · subst h'
        exact ⟨[], rs, rfl, by intro x hx; cases hx⟩
      · obtain ⟨l1, l2, hsplit, hfirst⟩ := ih _ r h'
        refine ⟨a :: l1, l2, by rw [hsplit, List.cons_append], ?_⟩
        have hrk : refKey r ∉ (refKey a :: seen) := dedupLoop_not_seen rs _ r h'
        intro x hx hxr
        rcases List.mem_cons.mp hx with h2 | h2
        · subst h2
          exfalso
          exact hrk (by rw [← hxr]; exact List.mem_cons_self _ _)
        · have := hfirst x h2 hxr
          rcases List.mem_cons.mp this with h3 | h3
          · exfalso
            exact hrk (by rw [← hxr, h3]; exact List.mem_cons_self _ _)
          · exact h3

theorem dedupLoop_covers : ∀ (l : List Ref) (seen : List (Int × Int)),
    ∀ m ∈ l, refKey m ∈ seen ∨ ∃ r ∈ dedupLoop l seen, refKey r = refKey m := by
  intro l
  induction l with
  | nil => intro seen m hm; cases hm
  | cons a rs ih =>
    intro seen m hm
    rw [dedupLoop]
    rcases List.mem_cons.mp hm with h' | h'
    · subst h'
      split_ifs with h
      · exact Or.inl h
      · exact Or.inr ⟨m, List.mem_cons_self _ _, rfl⟩
    · split_ifs with h
      · exact ih seen m h'
      · rcases ih (refKey a :: seen) m h' with hseen | ⟨r, hr, hrk⟩
        · rcases List.mem_cons.mp hseen with h2 | h2
          · exact Or.inr ⟨a, List.mem_cons_self _ _, h2.symm⟩
          · exact Or.inl h2
        · exact Or.inr ⟨r, List.mem_cons_of_mem _ hr, hrk⟩

theorem sortRefsAsc_sorted (l : List Ref) :
    (sortRefsAsc l).Pairwise (fun a b => a.start ≤ b.start) :=
  List.sorted_insertionSort _ l

/-- Claim C5: the detector is a function of the text alone (deterministic);
its output is sorted ascending by start; no two output spans share a
`(start, end)` key; every output span lies inside the text with
`start < end` and text equal to the matched slice; every output span is
the first span with its key in the sorted raw match list (so a duplicate
key keeps the first-encountered pattern type); and every raw match of
every rule — overlapping ones included — has its key represented in the
output. -/
theorem detect_spec (s : List Char) :
    detect_references_in_prompt s = detect_references_in_prompt s
    ∧ (detect_references_in_prompt s).Pairwise (fun a b => a.start ≤ b.start)
    ∧ (detect_references_in_prompt s).Pairwise (fun a b => refKey a ≠ refKey b)
    ∧ (∀ r ∈ detect_references_in_prompt s,
        0 ≤ r.start ∧ r.start < r.stop ∧ r.stop ≤ (s.length : Int)
        ∧ r.text = (s.drop r.start.toNat).take (r.stop.toNat - r.start.toNat))
    ∧ (∀ r ∈ detect_references_in_prompt s, ∃ l1 l2,
        sortRefsAsc (allMatches s) = l1 ++ r :: l2
        ∧ ∀ x ∈ l1, refKey x ≠ refKey r)
    ∧ (∀ m ∈ allMatches s, ∃ r ∈ detect_references_in_prompt s,
        refKey r = refKey m) := by
  refine ⟨rfl, ?_, ?_, ?_, ?_, ?_⟩
  · exact List.Pairwise.sublist (dedupLoop_sublist _ _) (sortRefsAsc_sorted _)
  · exact dedupLoop_keys_nodup _ _
  · intro r hr
    have h1 : r ∈ sortRefsAsc (allMatches s) :=
      (dedupLoop_sublist _ _).subset hr
    have hmem : r ∈ allMatches s :=
      (List.perm_insertionSort _ _).mem_iff.mp h1
    obtain ⟨i, e, hs1, hs2, hlt, hle, htext⟩ := allMatches_fields r hmem
    refine ⟨by rw [hs1]; exact Int.natCast_nonneg i, ?_, ?_, ?_⟩
    · rw [hs1, hs2]; exact_mod_cast hlt
    · rw [hs2]; exact_mod_cast hle
    · rw [htext, hs1, hs2]; simp
  · intro r hr
    obtain ⟨l1, l2, hsplit, hfirst⟩ := dedupLoop_first _ [] r hr
    exact ⟨l1, l2, hsplit, fun x hx heq => (List.not_mem_nil _) (hfirst x hx heq)⟩
  · intro m hm
    have hm' : m ∈ sortRefsAsc (allMatches s) :=
      (List.perm_insertionSort _ _).mem_iff.mpr hm
    rcases dedupLoop_covers _ [] m hm' with h | h
    · cases h
    · exact h

/-- Witness for `detect_spec` on text `"the report"` and its single
detected span. -/
theorem detect_spec_witness :
    0 ≤ (Ref.mk "the report".data 0 10 "definite_noun").start
    ∧ (Ref.mk "the report".data 0 10 "definite_noun").start
        < (Ref.mk "the report".data 0 10 "definite_noun").stop
    ∧ (Ref.mk "the report".data 0 10 "definite_noun").stop
        ≤ ("the report".data.length : Int)
    ∧ (Ref.mk "the report".data 0 10 "definite_noun").text
        = ("the report".data.drop
              (Ref.mk "the report".data 0 10 "definite_noun").start.toNat).take
            ((Ref.mk "the report".data 0 10 "definite_noun").stop.toNat
              - (Ref.mk "the report".data 0 10 "definite_noun").start.toNat) :=
  (detect_spec "the report".data).2.2.2.1
    (Ref.mk "the report".data 0 10 "definite_noun") (by decide)
